import Mathlib

/-!
# Verification of the baudvine ringbuf ring-buffer core

This file is a shallow embedding of the ring-buffer storage engine of the
`baudvine/ringbuf` repository (headers `include/baudvine/ringbuf/ringbuf.h`
and `include/baudvine/flexible_ringbuf.h`), together with proofs of the
specification's claims about it.

Embedding choices:

* The two container variants, `RingBuf<Elem, Capacity>` (compile-time
  capacity) and `FlexRingBuf<Elem>` (construction-time capacity), share the
  same algorithms verbatim (same `RingWrap` branch, same `Increment` and
  `Decrement`, same push/pop orderings), so one Lean structure `RingBuf`
  with a `capacity` field embeds both.
* The backing array `data_` (allocated with `Capacity + 1` slots) is a
  `List α` of length `capacity + 1`.  C++ element destruction
  (`alloc_traits::destroy`) has no effect that is observable through the
  container's API, so `pop_front`/`pop_back` only move the cursors, exactly
  as the source does apart from the destructor call.
* A possibly-throwing element constructor is embedded as an argument of
  type `Except Unit α`: `Except.ok v` is a construction that completes and
  produces the value `v`, `Except.error ()` is a construction that throws.
  `emplace_back`/`emplace_front` return the pair of the call's outcome
  (`Except.error ()` when the exception propagates to the caller) and the
  buffer state after the call.  In the source, `alloc_traits::construct` is
  the first statement of both functions that can modify anything, so when
  it throws no member has been modified: the error branches return the
  buffer unchanged, mirroring lines 716-730 and 678-693 of `ringbuf.h`.
* `size_type` values (`next_`, `ring_offset_`, `size_`) are embedded as
  `Nat`; all arithmetic the source performs on them stays far below 2^64
  under the well-formedness invariant, except in the iterator embedding
  (`Iter` below) where unsigned wraparound is modelled explicitly.
-/

namespace Ringbuf

/-- `detail::RingWrap` (`ringbuf.h` lines 128-133) and
`detail::flexible_ringbuf::RingWrap` (`flexible_ringbuf.h` lines 62-67):
`(ring_index <= capacity) ? ring_index : ring_index - capacity - 1`. -/
def RingWrap (capacity ring_index : Nat) : Nat :=
  if ring_index ≤ capacity then ring_index else ring_index - capacity - 1

/-- The ring buffer state: `capacity` (template parameter `Capacity` of
`RingBuf`, field `capacity_` of `FlexRingBuf`), the backing array `data_`
(length `capacity + 1`), the write cursor `next_`, the physical start
offset `ring_offset_`, and the element count `size_`. -/
structure RingBuf (α : Type) where
  capacity : Nat
  data : List α
  next : Nat
  ring_offset : Nat
  size : Nat
  deriving Repr, DecidableEq

namespace RingBuf

variable {α : Type}

/-- `Decrement` (`ringbuf.h` lines 337-339): `index > 0 ? index - 1 : Capacity`. -/
def Decrement (b : RingBuf α) (index : Nat) : Nat :=
  if index > 0 then index - 1 else b.capacity

/-- `Increment` (`ringbuf.h` lines 341-343): `index < Capacity ? index + 1 : 0`. -/
def Increment (b : RingBuf α) (index : Nat) : Nat :=
  if index < b.capacity then index + 1 else 0

/-- `ShrinkFront`: advance `ring_offset_`, decrement `size_`. -/
def ShrinkFront (b : RingBuf α) : RingBuf α :=
  { b with ring_offset := b.Increment b.ring_offset, size := b.size - 1 }

/-- `ShrinkBack`: retreat `next_`, decrement `size_`. -/
def ShrinkBack (b : RingBuf α) : RingBuf α :=
  { b with next := b.Decrement b.next, size := b.size - 1 }

/-- `GrowFront`: retreat `ring_offset_`, increment `size_`. -/
def GrowFront (b : RingBuf α) : RingBuf α :=
  { b with ring_offset := b.Decrement b.ring_offset, size := b.size + 1 }

/-- `GrowBack`: advance `next_`, increment `size_`. -/
def GrowBack (b : RingBuf α) : RingBuf α :=
  { b with next := b.Increment b.next, size := b.size + 1 }

/-- `pop_front` (`ringbuf.h` lines 736-743): no-op when empty, otherwise
destroy `data_[ring_offset_]` (no API-observable effect) and `ShrinkFront`. -/
def pop_front (b : RingBuf α) : RingBuf α :=
  if b.size = 0 then b else b.ShrinkFront

/-- `pop_back` (`ringbuf.h` lines 749-756): no-op when empty, otherwise
`ShrinkBack` and destroy `data_[next_]` (no API-observable effect). -/
def pop_back (b : RingBuf α) : RingBuf α :=
  if b.size = 0 then b else b.ShrinkBack

/-- `emplace_back` (`ringbuf.h` lines 716-730): return early when
`max_size() == 0`; construct at `data_[next_]` (an exception propagates with
no member modified); then `pop_front()` if `size() == max_size()`; then
`GrowBack()`.  Returns (outcome, state after the call). -/
def emplace_back (b : RingBuf α) (arg : Except Unit α) :
    Except Unit Unit × RingBuf α :=
  if b.capacity = 0 then (Except.ok (), b)
  else
    match arg with
    | Except.error e => (Except.error e, b)
    | Except.ok v =>
      let b1 : RingBuf α := { b with data := b.data.set b.next v }
      let b2 := if b1.size = b1.capacity then b1.pop_front else b1
      (Except.ok (), b2.GrowBack)

/-- `emplace_front` (`ringbuf.h` lines 678-693): return early when
`max_size() == 0`; construct at `data_[Decrement(ring_offset_)]` (an
exception propagates with no member modified); then `pop_back()` if
`size() == max_size()`; then `GrowFront()`. -/
def emplace_front (b : RingBuf α) (arg : Except Unit α) :
    Except Unit Unit × RingBuf α :=
  if b.capacity = 0 then (Except.ok (), b)
  else
    match arg with
    | Except.error e => (Except.error e, b)
    | Except.ok v =>
      let b1 : RingBuf α := { b with data := b.data.set (b.Decrement b.ring_offset) v }
      let b2 := if b1.size = b1.capacity then b1.pop_back else b1
      (Except.ok (), b2.GrowFront)

/-- `push_back` (`ringbuf.h` lines 701-708): `emplace_back` with a
construction that completes. -/
def push_back (b : RingBuf α) (v : α) : RingBuf α :=
  (b.emplace_back (Except.ok v)).2

/-- `push_front` (`ringbuf.h` lines 661-670): `emplace_front` with a
construction that completes. -/
def push_front (b : RingBuf α) (v : α) : RingBuf α :=
  (b.emplace_front (Except.ok v)).2

/-- `operator[]` (`ringbuf.h` lines 519-532):
`data_[RingWrap<Capacity>(ring_offset_ + index)]`. -/
def get [Inhabited α] (b : RingBuf α) (index : Nat) : α :=
  b.data.getD (RingWrap b.capacity (b.ring_offset + index)) default

/-- `at` (`ringbuf.h` lines 541-560): throw `std::out_of_range` when
`index >= size()`, else return `(*this)[index]`.  (`at` is a Lean keyword,
hence the name `atIndex`.) -/
def atIndex [Inhabited α] (b : RingBuf α) (index : Nat) : Except Unit α :=
  if index ≥ b.size then Except.error () else Except.ok (b.get index)

/-- `front()` (`ringbuf.h` line 502): `at(0)`. -/
def front [Inhabited α] (b : RingBuf α) : Except Unit α := b.atIndex 0

/-- `back()` (`ringbuf.h` line 509): `at(size() - 1)`.  On an empty buffer
the C++ unsigned `size() - 1` wraps to `SIZE_MAX`, which is `>= size()`;
the truncated `Nat` subtraction gives index `0 >= size()`: both are
rejected by the same `at` range check. -/
def back [Inhabited α] (b : RingBuf α) : Except Unit α := b.atIndex (b.size - 1)

/-- `empty()` (`ringbuf.h` line 641): `size() == 0`. -/
def empty (b : RingBuf α) : Bool := b.size == 0

/-- The freshly constructed buffer (`ringbuf.h` lines 393-406): `Capacity + 1`
raw slots (`d` stands for the junk in uninitialised memory), all cursors 0. -/
def ofCapacity (capacity : Nat) (d : α) : RingBuf α :=
  ⟨capacity, List.replicate (capacity + 1) d, 0, 0, 0⟩

/-- The logical contents, front to back: element `i` is `(*this)[i]`. -/
def toList [Inhabited α] (b : RingBuf α) : List α :=
  (List.range b.size).map b.get

/-- Well-formedness: the representation invariant the source maintains
(spec Invariants 1 and 3 plus the allocation size and offset range). -/
def WF (b : RingBuf α) : Prop :=
  b.data.length = b.capacity + 1 ∧ b.ring_offset ≤ b.capacity ∧
    b.size ≤ b.capacity ∧ b.next = RingWrap b.capacity (b.ring_offset + b.size)

instance (b : RingBuf α) : Decidable b.WF := by
  unfold WF; infer_instance


/-- Reading logical index `i` of a ring with offset `ro` out of backing
array `l`, as `operator[]` does. -/
def readAt [Inhabited α] (cap ro : Nat) (l : List α) (i : Nat) : α :=
  l.getD (RingWrap cap (ro + i)) default

/-- One mutating call of the push/emplace family (`BaseRingBuf::push_back`
and `push_front` delegate to the emplace functions with an always-succeeding
copy/move construction). -/
inductive Op (α : Type) where
  | pushBack : α → Op α
  | pushFront : α → Op α
  | emplaceBack : Except Unit α → Op α
  | emplaceFront : Except Unit α → Op α

/-- The buffer state after one push/emplace call (for a throwing emplace,
the state the caller observes alongside the propagated exception). -/
def applyOp (b : RingBuf α) : Op α → RingBuf α
  | Op.pushBack v => b.push_back v
  | Op.pushFront v => b.push_front v
  | Op.emplaceBack a => (b.emplace_back a).2
  | Op.emplaceFront a => (b.emplace_front a).2

/-- The buffer state after a sequence of push/emplace calls. -/
def applyOps (b : RingBuf α) (ops : List (Op α)) : RingBuf α :=
  ops.foldl applyOp b

/-- `push_back` every element of `l` in order. -/
def pushAllBack (b : RingBuf α) (l : List α) : RingBuf α :=
  l.foldl push_back b

/-- Assignment through a dereferenced iterator at logical index `j`
(`first[i] = ...` in `FlexRingBuf::erase`): write the physical slot
`RingWrap(capacity, ring_offset + j)`. -/
def setAt (b : RingBuf α) (j : Nat) (v : α) : RingBuf α :=
  { b with data := b.data.set (RingWrap b.capacity (b.ring_offset + j)) v }

/-- The first loop of `FlexRingBuf::erase` (`flexible_ringbuf.h` lines
649-652): `for (i = 0; i < trailing; i++) first[i] = move(last[i])`, where
`first`/`last` sit at logical indices `f`/`t`.  `moveBackN b f t n` is the
state after the iterations `i = 0 .. n-1`, in that order. -/
def moveBackN [Inhabited α] (b : RingBuf α) (f t : Nat) : Nat → RingBuf α
  | 0 => b
  | n + 1 => (moveBackN b f t n).setAt (f + n) ((moveBackN b f t n).get (t + n))

/-- The second loop of `FlexRingBuf::erase` (`flexible_ringbuf.h` lines
658-660): `for (i = -1; i >= -leading; i--) last[i] = move(first[i])`.
`moveFrontN b f t n` is the state after the iterations with offset
`-1 .. -n`, in that order. -/
def moveFrontN [Inhabited α] (b : RingBuf α) (f t : Nat) : Nat → RingBuf α
  | 0 => b
  | n + 1 =>
    (moveFrontN b f t n).setAt (t - (n + 1)) ((moveFrontN b f t n).get (f - (n + 1)))

/-- `n` repetitions of `pop_front` (the `to_pop` loop of `erase`). -/
def popFrontN (b : RingBuf α) : Nat → RingBuf α
  | 0 => b
  | n + 1 => (popFrontN b n).pop_front

/-- `n` repetitions of `pop_back` (the `to_pop` loop of `erase`). -/
def popBackN (b : RingBuf α) : Nat → RingBuf α
  | 0 => b
  | n + 1 => (popBackN b n).pop_back

/-- `FlexRingBuf::erase(from, to)` (`flexible_ringbuf.h` lines 637-669), with
the two iterator arguments given by their logical indices `f = from - begin()`
and `t = to - begin()`, and the returned iterator `end() - trailing` given by
its logical index (second component).  `leading`/`trailing` are `Nat`s here
where the source uses `difference_type`; they agree on every valid range
(`f ≤ t ≤ size()`, the only inputs with defined behaviour). -/
def erase [Inhabited α] (b : RingBuf α) (f t : Nat) : RingBuf α × Nat :=
  if f = t then (b, t)
  else
    let leading := f
    let trailing := b.size - t
    if leading > trailing then
      let b1 := popBackN (moveBackN b f t trailing) (t - f)
      (b1, b1.size - trailing)
    else
      let b1 := popFrontN (moveFrontN b f t leading) (t - f)
      (b1, b1.size - trailing)

/-- The physical address (offset into `data_`) of the element an iterator at
logical index `j` dereferences to: `&*it` is `data_ + phys j`. -/
def phys (b : RingBuf α) (j : Nat) : Nat :=
  RingWrap b.capacity (b.ring_offset + j)

/-- Read the backing array at a physical offset (`*(data_ + p)`). -/
def readPhys [Inhabited α] (b : RingBuf α) (p : Nat) : α :=
  b.data.getD p default

/-- The free function `detail::copy(begin, end, out)` (`ringbuf.h` lines
267-288, and identically `flexible_ringbuf.h` lines 185-201), with the two
iterators given by their logical indices `bi`/`ei` and the output sequence
returned as a list: empty range check, then the contiguity test
`&*end > &*begin`, then either one `std::copy` over physical addresses
`[phys bi, phys ei)` or two, over `[phys bi, Capacity + 1)` and
`[0, phys ei)`. -/
def copyIters [Inhabited α] (b : RingBuf α) (bi ei : Nat) : List α :=
  if bi = ei then []
  else if b.phys ei > b.phys bi then
    (List.range (b.phys ei - b.phys bi)).map (fun k => b.readPhys (b.phys bi + k))
  else
    (List.range (b.capacity + 1 - b.phys bi)).map (fun k => b.readPhys (b.phys bi + k)) ++
      (List.range (b.phys ei)).map (fun k => b.readPhys k)

/-- The generic linear elementwise forward copy of `[begin, end)` that
`detail::copy` replaces (spec-side definition for the refinement claim):
dereference `begin + k` for `k = 0 .. (end - begin) - 1`, in order. -/
def naiveCopy [Inhabited α] (b : RingBuf α) (bi ei : Nat) : List α :=
  (List.range (ei - bi)).map (fun k => b.get (bi + k))

end RingBuf

/-- `2^64`: one past the maximum of the 64-bit unsigned `size_type` used for
`ring_index_`. -/
def USIZE : Nat := 2 ^ 64

/-- `detail::flexible_ringbuf::Iterator` (`flexible_ringbuf.h` lines 79-179):
`capacity_`, `ring_offset_` and the logical index `ring_index_`, all of the
unsigned `size_type`.  The `data_` pointer is omitted: the claims below
relate iterators of one same buffer, whose `data_` (and `capacity_`,
`ring_offset_`) coincide. -/
structure Iter where
  cap : Nat
  ro : Nat
  idx : Nat
  deriving Repr, DecidableEq

/-- `operator+=(difference_type n)` (`flexible_ringbuf.h` lines 132-135):
`ring_index_ += n`, unsigned wraparound modulo `2^64`.  `it + n` is realised
as `+=` on a copy, as the random-access `BaseIterator` operations do. -/
def Iter.addIdx (it : Iter) (n : Int) : Iter :=
  { it with idx := (((it.idx : Int) + n) % (USIZE : Int)).toNat }

/-- `operator-=(difference_type n)` (`flexible_ringbuf.h` lines 137-140):
`ring_index_ -= n`, unsigned wraparound modulo `2^64`.  `it - n` is realised
as `-=` on a copy. -/
def Iter.subIdx (it : Iter) (n : Int) : Iter :=
  { it with idx := (((it.idx : Int) - n) % (USIZE : Int)).toNat }

/-- `operator-(lhs, rhs)` (`flexible_ringbuf.h` lines 142-153): branch on
`lhs.ring_index_ > rhs.ring_index_` so that the unsigned subtraction cannot
underflow, negating in the second branch. -/
def Iter.sub (lhs rhs : Iter) : Int :=
  if lhs.idx > rhs.idx then ((lhs.idx - rhs.idx : Nat) : Int)
  else -(((rhs.idx - lhs.idx : Nat) : Int))

/-- The physical offset of `&*it`: `operator*` returns
`data_[RingWrap(capacity_, ring_offset_ + ring_index_)]`, the sum computed
in the unsigned `size_type`. -/
def Iter.addr (it : Iter) : Nat := RingWrap it.cap ((it.ro + it.idx) % USIZE)

/-- `BaseIterator::operator==` (`base_ringbuf.h` lines 183-185):
`&*lhs == &*rhs`, i.e. equality of the dereferenced addresses (for
iterators into one same buffer, whose `data_` coincide). -/
def Iter.beq (a b : Iter) : Bool := a.addr == b.addr

end Ringbuf

namespace Ringbuf

namespace RingBuf

variable {α : Type}

theorem ringWrap_le {cap x : Nat} (h : x ≤ 2 * cap + 1) : RingWrap cap x ≤ cap := by
  unfold RingWrap; split <;> omega

theorem ringWrap_inj {cap ro i j : Nat} (hi : i ≤ cap)
    (hj : j ≤ cap) (h : RingWrap cap (ro + i) = RingWrap cap (ro + j)) : i = j := by
  unfold RingWrap at h; split at h <;> split at h <;> omega

theorem ringWrap_add_left {cap x z : Nat} (h : x + z ≤ 2 * cap + 1) :
    RingWrap cap (RingWrap cap x + z) = RingWrap cap (x + z) := by
  unfold RingWrap; split_ifs <;> omega

theorem Increment_ringWrap (b : RingBuf α) {x : Nat} (h : x ≤ 2 * b.capacity) :
    b.Increment (RingWrap b.capacity x) = RingWrap b.capacity (x + 1) := by
  unfold Increment RingWrap; split_ifs <;> omega

theorem Decrement_ringWrap (b : RingBuf α) {y : Nat} (h1 : 1 ≤ y)
    (h2 : y ≤ 2 * b.capacity + 1) :
    b.Decrement (RingWrap b.capacity y) = RingWrap b.capacity (y - 1) := by
  unfold Decrement RingWrap; split_ifs <;> omega

theorem Decrement_ring_offset {b : RingBuf α} (_hro : b.ring_offset ≤ b.capacity) :
    b.Decrement b.ring_offset = RingWrap b.capacity (b.ring_offset + b.capacity) := by
  unfold Decrement RingWrap; split_ifs <;> omega

theorem getD_set (l : List α) (p q : Nat) (v d : α) :
    (l.set p v).getD q d = if q = p ∧ p < l.length then v else l.getD q d := by
  simp only [List.getD_eq_getElem?_getD, List.getElem?_set]
  rcases eq_or_ne p q with rfl | hne
  · rcases lt_or_ge p l.length with hlt | hge
    · simp [hlt]
    · simp [Nat.not_lt.2 hge, List.getElem?_eq_none hge]
  · simp [hne, Ne.symm hne]

theorem length_toList [Inhabited α] (b : RingBuf α) : b.toList.length = b.size := by
  simp [toList]

theorem getElem_toList [Inhabited α] (b : RingBuf α) (i : Nat)
    (h : i < b.toList.length) : b.toList[i] = b.get i := by
  simp [toList]

theorem get_set_logical [Inhabited α] {b : RingBuf α} (h : b.WF) {k : Nat}
    (hk : k ≤ b.capacity) (v : α) {i : Nat} (hi : i ≤ b.capacity) :
    ({ b with data := b.data.set (RingWrap b.capacity (b.ring_offset + k)) v } :
      RingBuf α).get i = if i = k then v else b.get i := by
  obtain ⟨hlen, hro, hsz, hnext⟩ := h
  have hple : RingWrap b.capacity (b.ring_offset + k) ≤ b.capacity :=
    ringWrap_le (by omega)
  simp only [get, getD_set, hlen]
  rcases eq_or_ne i k with rfl | hne
  · simp [Nat.lt_succ_of_le hple]
  · have hdiff : RingWrap b.capacity (b.ring_offset + i) ≠
        RingWrap b.capacity (b.ring_offset + k) :=
      fun hc => hne (ringWrap_inj hi hk hc)
    simp [hdiff, hne]

theorem ringWrap_self {cap ro : Nat} (h : ro ≤ cap) : RingWrap cap (ro + 0) = ro := by
  unfold RingWrap; split <;> omega

theorem WF_pop_front {b : RingBuf α} (h : b.WF) : b.pop_front.WF := by
  obtain ⟨hlen, hro, hsz, hnext⟩ := h
  rw [pop_front]
  split
  · exact ⟨hlen, hro, hsz, hnext⟩
  · rename_i hne
    unfold WF ShrinkFront
    dsimp only
    have hro0 : b.Increment b.ring_offset = RingWrap b.capacity (b.ring_offset + 1) := by
      conv_lhs => rw [← ringWrap_self hro]
      rw [Increment_ringWrap b (by omega)]
    refine ⟨hlen, ?_, by omega, ?_⟩
    · rw [hro0]; exact ringWrap_le (by omega)
    · rw [hro0, ringWrap_add_left (by omega), hnext]
      congr 1
      omega

theorem WF_pop_back {b : RingBuf α} (h : b.WF) : b.pop_back.WF := by
  obtain ⟨hlen, hro, hsz, hnext⟩ := h
  rw [pop_back]
  split
  · exact ⟨hlen, hro, hsz, hnext⟩
  · rename_i hne
    unfold WF ShrinkBack
    dsimp only
    refine ⟨hlen, hro, by omega, ?_⟩
    rw [hnext, Decrement_ringWrap b (by omega) (by omega)]
    congr 1
    omega

theorem capacity_pop_front (b : RingBuf α) : b.pop_front.capacity = b.capacity := by
  rw [pop_front]; split
  · rfl
  · rfl

theorem capacity_pop_back (b : RingBuf α) : b.pop_back.capacity = b.capacity := by
  rw [pop_back]; split
  · rfl
  · rfl

theorem size_pop_front (b : RingBuf α) : b.pop_front.size = b.size - 1 := by
  rw [pop_front]; split
  · rename_i h0; omega
  · rfl

theorem size_pop_back (b : RingBuf α) : b.pop_back.size = b.size - 1 := by
  rw [pop_back]; split
  · rename_i h0; omega
  · rfl

theorem get_pop_front [Inhabited α] {b : RingBuf α} (h : b.WF) {i : Nat}
    (hi : i < b.size - 1) : b.pop_front.get i = b.get (i + 1) := by
  obtain ⟨hlen, hro, hsz, hnext⟩ := h
  rw [pop_front]
  split
  · omega
  · unfold ShrinkFront get
    dsimp only
    congr 1
    conv_lhs => rw [← ringWrap_self hro]
    rw [Increment_ringWrap b (by omega), ringWrap_add_left (by omega)]
    congr 1
    omega

theorem get_pop_back [Inhabited α] {b : RingBuf α} {i : Nat} :
    b.pop_back.get i = b.get i := by
  rw [pop_back]
  split
  · rfl
  · rfl

theorem toList_pop_front [Inhabited α] {b : RingBuf α} (h : b.WF) :
    b.pop_front.toList = b.toList.drop 1 := by
  apply List.ext_getElem
  · simp [length_toList, size_pop_front]
  · intro n h1 h2
    rw [getElem_toList, List.getElem_drop, getElem_toList]
    rw [get_pop_front h (by simp [length_toList, size_pop_front] at h1; omega)]
    congr 1
    omega

theorem toList_pop_back [Inhabited α] {b : RingBuf α} (_h : b.WF) :
    b.pop_back.toList = b.toList.take (b.size - 1) := by
  apply List.ext_getElem
  · simp [length_toList, size_pop_back]
  · intro n h1 h2
    rw [getElem_toList, List.getElem_take, getElem_toList, get_pop_back]

theorem get_eq_readAt [Inhabited α] (b : RingBuf α) (i : Nat) :
    b.get i = readAt b.capacity b.ring_offset b.data i := rfl

theorem readAt_set [Inhabited α] {cap ro k i : Nat} {l : List α} {v : α}
    (hlen : l.length = cap + 1) (hro : ro ≤ cap) (hk : k ≤ cap) (hi : i ≤ cap) :
    readAt cap ro (l.set (RingWrap cap (ro + k)) v) i =
      if i = k then v else readAt cap ro l i := by
  have hple : RingWrap cap (ro + k) ≤ cap := ringWrap_le (by omega)
  simp only [readAt, getD_set, hlen]
  rcases eq_or_ne i k with rfl | hne
  · simp [Nat.lt_succ_of_le hple]
  · have hdiff : RingWrap cap (ro + i) ≠ RingWrap cap (ro + k) :=
      fun hc => hne (ringWrap_inj hi hk hc)
    simp [hdiff, hne]

theorem ringWrap_shift_pred {cap ro i : Nat} (hro : ro ≤ cap) (h1 : 1 ≤ i)
    (hi : i ≤ cap + 1) :
    RingWrap cap (RingWrap cap (ro + cap) + i) = RingWrap cap (ro + (i - 1)) := by
  unfold RingWrap; split_ifs <;> omega

theorem readAt_shift_pred [Inhabited α] {cap ro i : Nat} {l : List α}
    (hro : ro ≤ cap) (h1 : 1 ≤ i) (hi : i ≤ cap + 1) :
    readAt cap (RingWrap cap (ro + cap)) l i = readAt cap ro l (i - 1) := by
  simp only [readAt, ringWrap_shift_pred hro h1 hi]

theorem push_back_zero {b : RingBuf α} (h : b.capacity = 0) (v : α) :
    b.push_back v = b := by
  simp [push_back, emplace_back, h]

theorem push_front_zero {b : RingBuf α} (h : b.capacity = 0) (v : α) :
    b.push_front v = b := by
  simp [push_front, emplace_front, h]

theorem emplace_back_ok (b : RingBuf α) (v : α) :
    b.emplace_back (Except.ok v) = (Except.ok (), b.push_back v) := by
  rcases Nat.eq_zero_or_pos b.capacity with h | h
  · simp [emplace_back, push_back, h]
  · simp [emplace_back, push_back, Nat.pos_iff_ne_zero.mp h]

theorem emplace_front_ok (b : RingBuf α) (v : α) :
    b.emplace_front (Except.ok v) = (Except.ok (), b.push_front v) := by
  rcases Nat.eq_zero_or_pos b.capacity with h | h
  · simp [emplace_front, push_front, h]
  · simp [emplace_front, push_front, Nat.pos_iff_ne_zero.mp h]

theorem push_back_not_full_eq {b : RingBuf α} (hlt : b.size < b.capacity) (v : α) :
    b.push_back v = { b with
      data := b.data.set b.next v
      next := b.Increment b.next
      size := b.size + 1 } := by
  unfold push_back emplace_back
  rw [if_neg (by omega)]
  dsimp only
  rw [if_neg (by omega)]
  rfl

theorem push_back_full_eq {b : RingBuf α} (hful : b.size = b.capacity)
    (hpos : 0 < b.capacity) (v : α) :
    b.push_back v = { b with
      data := b.data.set b.next v
      ring_offset := b.Increment b.ring_offset
      next := b.Increment b.next
      size := b.size } := by
  unfold push_back emplace_back
  rw [if_neg (by omega)]
  dsimp only
  rw [if_pos hful]
  unfold pop_front
  rw [if_neg (by dsimp only; omega)]
  unfold ShrinkFront GrowBack Increment
  dsimp only
  congr 1
  omega

theorem push_front_not_full_eq {b : RingBuf α} (hlt : b.size < b.capacity) (v : α) :
    b.push_front v = { b with
      data := b.data.set (b.Decrement b.ring_offset) v
      ring_offset := b.Decrement b.ring_offset
      size := b.size + 1 } := by
  unfold push_front emplace_front
  rw [if_neg (by omega)]
  dsimp only
  rw [if_neg (by omega)]
  rfl

theorem push_front_full_eq {b : RingBuf α} (hful : b.size = b.capacity)
    (hpos : 0 < b.capacity) (v : α) :
    b.push_front v = { b with
      data := b.data.set (b.Decrement b.ring_offset) v
      next := b.Decrement b.next
      ring_offset := b.Decrement b.ring_offset
      size := b.size } := by
  unfold push_front emplace_front
  rw [if_neg (by omega)]
  dsimp only
  rw [if_pos hful]
  unfold pop_back
  rw [if_neg (by dsimp only; omega)]
  unfold ShrinkBack GrowFront Decrement
  dsimp only
  congr 1
  omega

theorem Increment_ring_offset {b : RingBuf α} (hro : b.ring_offset ≤ b.capacity) :
    b.Increment b.ring_offset = RingWrap b.capacity (b.ring_offset + 1) := by
  unfold Increment RingWrap; split_ifs <;> omega

theorem Increment_le (b : RingBuf α) (i : Nat) : b.Increment i ≤ b.capacity := by
  unfold Increment; split <;> omega

theorem Decrement_le (b : RingBuf α) {i : Nat} (h : i ≤ b.capacity + 1) :
    b.Decrement i ≤ b.capacity := by
  unfold Decrement; split <;> omega

theorem readAt_shift_succ [Inhabited α] {cap ro i : Nat} {l : List α}
    (h : ro + 1 + i ≤ 2 * cap + 1) :
    readAt cap (RingWrap cap (ro + 1)) l i = readAt cap ro l (1 + i) := by
  simp only [readAt, ringWrap_add_left h]
  congr 2
  omega

theorem WF_push_back {b : RingBuf α} (h : b.WF) (v : α) : (b.push_back v).WF := by
  obtain ⟨hlen, hro, hsz, hnext⟩ := h
  rcases eq_or_ne b.capacity 0 with hc | hc
  · rw [push_back_zero hc]; exact ⟨hlen, hro, hsz, hnext⟩
  rcases lt_or_eq_of_le hsz with hlt | hful
  · rw [push_back_not_full_eq hlt]
    unfold WF
    dsimp only
    refine ⟨by simpa using hlen, hro, by omega, ?_⟩
    rw [hnext, Increment_ringWrap b (by omega)]
    congr 1
  · rw [push_back_full_eq hful (by omega)]
    unfold WF
    dsimp only
    refine ⟨by simpa using hlen, Increment_le b _, le_of_eq hful, ?_⟩
    rw [hnext, hful, Increment_ringWrap b (by omega), Increment_ring_offset hro,
      ringWrap_add_left (by omega)]
    congr 1
    omega

theorem WF_push_front {b : RingBuf α} (h : b.WF) (v : α) : (b.push_front v).WF := by
  obtain ⟨hlen, hro, hsz, hnext⟩ := h
  rcases eq_or_ne b.capacity 0 with hc | hc
  · rw [push_front_zero hc]; exact ⟨hlen, hro, hsz, hnext⟩
  rcases lt_or_eq_of_le hsz with hlt | hful
  · rw [push_front_not_full_eq hlt]
    unfold WF
    dsimp only
    refine ⟨by simpa using hlen, Decrement_le b (by omega), by omega, ?_⟩
    rw [hnext, Decrement_ring_offset hro,
      ringWrap_shift_pred hro (by omega) (by omega)]
    congr 1
  · rw [push_front_full_eq hful (by omega)]
    unfold WF
    dsimp only
    refine ⟨by simpa using hlen, Decrement_le b (by omega), le_of_eq hful, ?_⟩
    rw [hnext, hful, Decrement_ringWrap b (by omega) (by omega),
      Decrement_ring_offset hro, ringWrap_shift_pred hro (by omega) (by omega)]
    congr 1
    omega

theorem capacity_push_back (b : RingBuf α) (v : α) :
    (b.push_back v).capacity = b.capacity := by
  unfold push_back emplace_back
  rcases eq_or_ne b.capacity 0 with hc | hc
  · simp [hc]
  · simp only [if_neg hc]
    dsimp only
    split
    · simp [GrowBack, capacity_pop_front]
    · rfl

theorem capacity_push_front (b : RingBuf α) (v : α) :
    (b.push_front v).capacity = b.capacity := by
  unfold push_front emplace_front
  rcases eq_or_ne b.capacity 0 with hc | hc
  · simp [hc]
  · simp only [if_neg hc]
    dsimp only
    split
    · simp [GrowFront, capacity_pop_back]
    · rfl

theorem size_push_back {b : RingBuf α} (h : b.WF) (v : α) :
    (b.push_back v).size = if b.capacity = 0 then 0 else
      if b.size = b.capacity then b.capacity else b.size + 1 := by
  obtain ⟨hlen, hro, hsz, hnext⟩ := h
  rcases eq_or_ne b.capacity 0 with hc | hc
  · rw [push_back_zero hc, if_pos hc]; omega
  rcases lt_or_eq_of_le hsz with hlt | hful
  · rw [push_back_not_full_eq hlt, if_neg hc, if_neg (by omega)]
  · rw [push_back_full_eq hful (by omega), if_neg hc, if_pos hful]
    exact hful

theorem size_push_front {b : RingBuf α} (h : b.WF) (v : α) :
    (b.push_front v).size = if b.capacity = 0 then 0 else
      if b.size = b.capacity then b.capacity else b.size + 1 := by
  obtain ⟨hlen, hro, hsz, hnext⟩ := h
  rcases eq_or_ne b.capacity 0 with hc | hc
  · rw [push_front_zero hc, if_pos hc]; omega
  rcases lt_or_eq_of_le hsz with hlt | hful
  · rw [push_front_not_full_eq hlt, if_neg hc, if_neg (by omega)]
  · rw [push_front_full_eq hful (by omega), if_neg hc, if_pos hful]
    exact hful

theorem get_push_back_not_full [Inhabited α] {b : RingBuf α} (h : b.WF)
    (hlt : b.size < b.capacity) (v : α) {i : Nat} (hi : i ≤ b.capacity) :
    (b.push_back v).get i = if i = b.size then v else b.get i := by
  obtain ⟨hlen, hro, hsz, hnext⟩ := h
  rw [push_back_not_full_eq hlt, get_eq_readAt]
  dsimp only
  rw [hnext, readAt_set hlen hro hsz hi]
  rfl

theorem get_push_back_full [Inhabited α] {b : RingBuf α} (h : b.WF)
    (hful : b.size = b.capacity) (hpos : 0 < b.capacity) (v : α) {i : Nat}
    (hi : i < b.capacity) :
    (b.push_back v).get i = if i = b.capacity - 1 then v else b.get (i + 1) := by
  obtain ⟨hlen, hro, hsz, hnext⟩ := h
  rw [push_back_full_eq hful (by omega), get_eq_readAt]
  dsimp only
  rw [Increment_ring_offset hro, hnext, hful]
  rw [readAt_shift_succ (by omega)]
  rw [readAt_set hlen hro (le_refl b.capacity) (by omega)]
  rcases eq_or_ne i (b.capacity - 1) with rfl | hne
  · rw [if_pos (by omega), if_pos rfl]
  · rw [if_neg (by omega), if_neg hne, get_eq_readAt]
    congr 1
    omega

theorem get_push_front [Inhabited α] {b : RingBuf α} (h : b.WF)
    (hpos : 0 < b.capacity) (v : α) {i : Nat} (hi : i ≤ b.capacity) :
    (b.push_front v).get i = if i = 0 then v else b.get (i - 1) := by
  obtain ⟨hlen, hro, hsz, hnext⟩ := h
  have key : ∀ b' : RingBuf α, b'.capacity = b.capacity →
      b'.ring_offset = b.Decrement b.ring_offset →
      b'.data = b.data.set (b.Decrement b.ring_offset) v →
      b'.get i = if i = 0 then v else b.get (i - 1) := by
    intro b' hcap hro' hdata
    rw [get_eq_readAt, hcap, hro', hdata, Decrement_ring_offset hro]
    have hset : b.data.set (RingWrap b.capacity (b.ring_offset + b.capacity)) v =
        b.data.set (RingWrap b.capacity
          (RingWrap b.capacity (b.ring_offset + b.capacity) + 0)) v := by
      rw [ringWrap_self (ringWrap_le (by omega))]
    rw [hset, readAt_set hlen (ringWrap_le (by omega)) (Nat.zero_le _) hi]
    rcases eq_or_ne i 0 with rfl | hne
    · rw [if_pos rfl, if_pos rfl]
    · rw [if_neg hne, if_neg hne, readAt_shift_pred hro (by omega) (by omega),
        get_eq_readAt]
  rcases lt_or_eq_of_le hsz with hlt | hful
  · rw [push_front_not_full_eq hlt]
    exact key _ rfl rfl rfl
  · rw [push_front_full_eq hful hpos]
    exact key _ rfl rfl rfl

theorem toList_push_back_not_full [Inhabited α] {b : RingBuf α} (h : b.WF)
    (hlt : b.size < b.capacity) (v : α) :
    (b.push_back v).toList = b.toList ++ [v] := by
  have hsz' : (b.push_back v).size = b.size + 1 := by
    rw [push_back_not_full_eq hlt]
  unfold toList
  rw [hsz', List.range_succ, List.map_append, List.map_singleton]
  congr 1
  · apply List.map_congr_left
    intro a ha
    rw [List.mem_range] at ha
    rw [get_push_back_not_full h hlt v (by omega), if_neg (by omega)]
  · rw [get_push_back_not_full h hlt v (by omega), if_pos rfl]

theorem toList_push_back_full [Inhabited α] {b : RingBuf α} (h : b.WF)
    (hful : b.size = b.capacity) (hpos : 0 < b.capacity) (v : α) :
    (b.push_back v).toList = b.toList.drop 1 ++ [v] := by
  have hsz' : (b.push_back v).size = b.size := by
    rw [push_back_full_eq hful (by omega)]
  apply List.ext_getElem
  · simp only [length_toList, hsz', hful, List.length_append, List.length_drop,
      List.length_singleton]
    omega
  · intro n h1 h2
    rw [length_toList, hsz', hful] at h1
    rw [getElem_toList, get_push_back_full h hful hpos v h1]
    rcases eq_or_ne n (b.capacity - 1) with rfl | hne
    · rw [List.getElem_append_right (by simp [length_toList]; omega)]
      rw [if_pos rfl]
      simp [length_toList, hful]
    · rw [if_neg hne, List.getElem_append_left (by simp [length_toList]; omega),
        List.getElem_drop, getElem_toList]
      congr 1
      omega

theorem toList_push_front_not_full [Inhabited α] {b : RingBuf α} (h : b.WF)
    (hlt : b.size < b.capacity) (v : α) :
    (b.push_front v).toList = v :: b.toList := by
  have hsz' : (b.push_front v).size = b.size + 1 := by
    rw [push_front_not_full_eq hlt]
  apply List.ext_getElem
  · simp [length_toList, hsz']
  · intro n h1 h2
    rw [length_toList, hsz'] at h1
    rw [getElem_toList, get_push_front h (by omega) v (by omega)]
    rcases n with _ | m
    · rw [if_pos rfl]
      rfl
    · rw [if_neg (by omega), List.getElem_cons_succ, getElem_toList]
      exact rfl

theorem toList_push_front_full [Inhabited α] {b : RingBuf α} (h : b.WF)
    (hful : b.size = b.capacity) (hpos : 0 < b.capacity) (v : α) :
    (b.push_front v).toList = v :: b.toList.dropLast := by
  have hsz' : (b.push_front v).size = b.size := by
    rw [push_front_full_eq hful hpos]
  apply List.ext_getElem
  · simp only [length_toList, hsz', hful, List.length_cons, List.length_dropLast]
    omega
  · intro n h1 h2
    rw [length_toList, hsz', hful] at h1
    rw [getElem_toList, get_push_front h hpos v (by omega)]
    rcases n with _ | m
    · rw [if_pos rfl]
      rfl
    · rw [if_neg (by omega), List.getElem_cons_succ, List.getElem_dropLast,
        getElem_toList]
      exact rfl

theorem emplace_back_error (b : RingBuf α) (e : Unit) :
    (b.emplace_back (Except.error e)).2 = b := by
  unfold emplace_back
  split
  · rfl
  · rfl

theorem emplace_front_error (b : RingBuf α) (e : Unit) :
    (b.emplace_front (Except.error e)).2 = b := by
  unfold emplace_front
  split
  · rfl
  · rfl

theorem emplace_back_error_outcome {b : RingBuf α} (hc : b.capacity ≠ 0) (e : Unit) :
    (b.emplace_back (Except.error e)).1 = Except.error e := by
  unfold emplace_back
  rw [if_neg hc]

theorem emplace_front_error_outcome {b : RingBuf α} (hc : b.capacity ≠ 0) (e : Unit) :
    (b.emplace_front (Except.error e)).1 = Except.error e := by
  unfold emplace_front
  rw [if_neg hc]

theorem WF_applyOp {b : RingBuf α} (h : b.WF) (op : Op α) : (applyOp b op).WF := by
  cases op with
  | pushBack v => exact WF_push_back h v
  | pushFront v => exact WF_push_front h v
  | emplaceBack a =>
    cases a with
    | error e => rw [applyOp, emplace_back_error]; exact h
    | ok v => rw [applyOp, emplace_back_ok]; exact WF_push_back h v
  | emplaceFront a =>
    cases a with
    | error e => rw [applyOp, emplace_front_error]; exact h
    | ok v => rw [applyOp, emplace_front_ok]; exact WF_push_front h v

theorem capacity_applyOp (b : RingBuf α) (op : Op α) :
    (applyOp b op).capacity = b.capacity := by
  cases op with
  | pushBack v => exact capacity_push_back b v
  | pushFront v => exact capacity_push_front b v
  | emplaceBack a =>
    cases a with
    | error e => rw [applyOp, emplace_back_error]
    | ok v => rw [applyOp, emplace_back_ok]; exact capacity_push_back b v
  | emplaceFront a =>
    cases a with
    | error e => rw [applyOp, emplace_front_error]
    | ok v => rw [applyOp, emplace_front_ok]; exact capacity_push_front b v

theorem WF_applyOps {b : RingBuf α} (h : b.WF) (ops : List (Op α)) :
    (applyOps b ops).WF ∧ (applyOps b ops).capacity = b.capacity := by
  induction ops generalizing b with
  | nil => exact ⟨h, rfl⟩
  | cons op rest ih =>
    have step : applyOps b (op :: rest) = applyOps (applyOp b op) rest := rfl
    rw [step]
    obtain ⟨h1, h2⟩ := ih (WF_applyOp h op)
    exact ⟨h1, h2.trans (capacity_applyOp b op)⟩

theorem toList_pushAllBack [Inhabited α] {b : RingBuf α} (h : b.WF)
    (hempty : b.size = 0) (l : List α) :
    (pushAllBack b l).WF ∧ (pushAllBack b l).capacity = b.capacity ∧
      (pushAllBack b l).toList = l.drop (l.length - b.capacity) := by
  induction l using List.reverseRecOn with
  | nil =>
    refine ⟨h, rfl, ?_⟩
    simp [pushAllBack, toList, hempty]
  | append_singleton l x ih =>
    obtain ⟨hwf, hcap, htl⟩ := ih
    have step : pushAllBack b (l ++ [x]) = (pushAllBack b l).push_back x := by
      simp [pushAllBack, List.foldl_append]
    have hsz : (pushAllBack b l).size = l.length - (l.length - b.capacity) := by
      rw [← length_toList, htl, List.length_drop]
    rw [step]
    refine ⟨WF_push_back hwf x, (capacity_push_back _ x).trans hcap, ?_⟩
    rcases eq_or_ne b.capacity 0 with hc | hc
    · rw [push_back_zero (by rw [hcap, hc]), htl]
      simp [hc]
    · have hszle : (pushAllBack b l).size ≤ (pushAllBack b l).capacity := hwf.2.2.1
      rcases lt_or_eq_of_le hszle with hlt | hful
      · rw [toList_push_back_not_full hwf hlt x, htl]
        have hllt : l.length < b.capacity := by rw [hcap] at hlt; omega
        simp only [List.length_append, List.length_singleton]
        rw [Nat.sub_eq_zero_of_le (le_of_lt hllt), Nat.sub_eq_zero_of_le (by omega)]
        simp
      · have hpos : 0 < (pushAllBack b l).capacity := by rw [hcap]; omega
        have hlge : b.capacity ≤ l.length := by
          rw [hcap] at hful; omega
        rw [toList_push_back_full hwf hful hpos x, htl, List.drop_drop]
        simp only [List.length_append, List.length_singleton]
        rw [List.drop_append_of_le_length (by omega)]
        congr 2
        omega

theorem WF_setAt {b : RingBuf α} (h : b.WF) (j : Nat) (v : α) : (b.setAt j v).WF := by
  obtain ⟨hlen, hro, hsz, hnext⟩ := h
  unfold WF setAt
  dsimp only
  exact ⟨by simp [hlen], hro, hsz, hnext⟩

theorem fields_setAt (b : RingBuf α) (j : Nat) (v : α) :
    (b.setAt j v).capacity = b.capacity ∧ (b.setAt j v).ring_offset = b.ring_offset ∧
      (b.setAt j v).next = b.next ∧ (b.setAt j v).size = b.size :=
  ⟨rfl, rfl, rfl, rfl⟩

theorem get_setAt [Inhabited α] {b : RingBuf α} (h : b.WF) {j i : Nat} (v : α)
    (hj : j ≤ b.capacity) (hi : i ≤ b.capacity) :
    (b.setAt j v).get i = if i = j then v else b.get i := by
  obtain ⟨hlen, hro, hsz, hnext⟩ := h
  rw [setAt, get_eq_readAt]
  dsimp only
  rw [readAt_set hlen hro hj hi]
  rfl

theorem moveBackN_spec [Inhabited α] {b : RingBuf α} (h : b.WF) {f t : Nat}
    (hft : f < t) (ht : t ≤ b.size) :
    ∀ n, n ≤ b.size - t →
      (moveBackN b f t n).WF ∧
      (moveBackN b f t n).capacity = b.capacity ∧
      (moveBackN b f t n).ring_offset = b.ring_offset ∧
      (moveBackN b f t n).size = b.size ∧
      ∀ p, p ≤ b.capacity →
        (moveBackN b f t n).get p =
          if f ≤ p ∧ p < f + n then b.get (t + (p - f)) else b.get p := by
  have hsz : b.size ≤ b.capacity := h.2.2.1
  intro n
  induction n with
  | zero =>
    intro _
    refine ⟨h, rfl, rfl, rfl, ?_⟩
    intro p hp
    rw [if_neg (by omega)]
    rfl
  | succ n ih =>
    intro hn
    obtain ⟨hwf, hcap, hro, hsize, hget⟩ := ih (by omega)
    have hread : (moveBackN b f t n).get (t + n) = b.get (t + n) := by
      rw [hget (t + n) (by omega), if_neg (by omega)]
    refine ⟨WF_setAt hwf _ _, (fields_setAt _ _ _).1.trans hcap,
      (fields_setAt _ _ _).2.1.trans hro, (fields_setAt _ _ _).2.2.2.trans hsize, ?_⟩
    intro p hp
    rw [moveBackN, get_setAt hwf _ (by omega) (by rw [hcap]; omega), hread]
    rcases eq_or_ne p (f + n) with rfl | hne
    · rw [if_pos rfl, if_pos (by omega)]
      congr 1
      omega
    · rw [if_neg hne, hget p hp]
      rcases Nat.lt_or_ge p (f + n) with hcase | hcase
      · by_cases hfp : f ≤ p
        · rw [if_pos ⟨hfp, hcase⟩, if_pos (by omega)]
        · rw [if_neg (by omega), if_neg (by omega)]
      · rw [if_neg (by omega), if_neg (by omega)]

theorem moveFrontN_spec [Inhabited α] {b : RingBuf α} (h : b.WF) {f t : Nat}
    (hft : f < t) (ht : t ≤ b.size) :
    ∀ n, n ≤ f →
      (moveFrontN b f t n).WF ∧
      (moveFrontN b f t n).capacity = b.capacity ∧
      (moveFrontN b f t n).ring_offset = b.ring_offset ∧
      (moveFrontN b f t n).size = b.size ∧
      ∀ p, p ≤ b.capacity →
        (moveFrontN b f t n).get p =
          if t - n ≤ p ∧ p < t then b.get (p - (t - f)) else b.get p := by
  have hsz : b.size ≤ b.capacity := h.2.2.1
  intro n
  induction n with
  | zero =>
    intro _
    refine ⟨h, rfl, rfl, rfl, ?_⟩
    intro p hp
    rw [if_neg (by omega)]
    rfl
  | succ n ih =>
    intro hn
    obtain ⟨hwf, hcap, hro, hsize, hget⟩ := ih (by omega)
    have hread : (moveFrontN b f t n).get (f - (n + 1)) = b.get (f - (n + 1)) := by
      rw [hget (f - (n + 1)) (by omega), if_neg (by omega)]
    refine ⟨WF_setAt hwf _ _, (fields_setAt _ _ _).1.trans hcap,
      (fields_setAt _ _ _).2.1.trans hro, (fields_setAt _ _ _).2.2.2.trans hsize, ?_⟩
    intro p hp
    rw [moveFrontN, get_setAt hwf _ (by omega) (by rw [hcap]; omega), hread]
    rcases eq_or_ne p (t - (n + 1)) with rfl | hne
    · rw [if_pos rfl, if_pos (by omega)]
      congr 1
      omega
    · rw [if_neg hne, hget p hp]
      by_cases hcase : t - n ≤ p ∧ p < t
      · rw [if_pos hcase, if_pos (by omega)]
      · rw [if_neg hcase, if_neg (by omega)]

theorem popBackN_spec [Inhabited α] {b : RingBuf α} (h : b.WF) :
    ∀ n, (popBackN b n).WF ∧ (popBackN b n).capacity = b.capacity ∧
      (popBackN b n).size = b.size - n ∧
      (popBackN b n).toList = b.toList.take (b.size - n) := by
  intro n
  induction n with
  | zero =>
    refine ⟨h, rfl, rfl, ?_⟩
    rw [Nat.sub_zero, ← length_toList, List.take_length]
    rfl
  | succ n ih =>
    obtain ⟨hwf, hcap, hsize, htl⟩ := ih
    refine ⟨WF_pop_back hwf, (capacity_pop_back _).trans hcap, ?_, ?_⟩
    · rw [popBackN, size_pop_back, hsize]
      omega
    · rw [popBackN, toList_pop_back hwf, htl, hsize, List.take_take]
      congr 1
      omega

theorem popFrontN_spec [Inhabited α] {b : RingBuf α} (h : b.WF) :
    ∀ n, (popFrontN b n).WF ∧ (popFrontN b n).capacity = b.capacity ∧
      (popFrontN b n).size = b.size - n ∧
      (popFrontN b n).toList = b.toList.drop n := by
  intro n
  induction n with
  | zero => exact ⟨h, rfl, rfl, by rw [List.drop_zero]; rfl⟩
  | succ n ih =>
    obtain ⟨hwf, hcap, hsize, htl⟩ := ih
    refine ⟨WF_pop_front hwf, (capacity_pop_front _).trans hcap, ?_, ?_⟩
    · rw [popFrontN, size_pop_front, hsize]
      omega
    · rw [popFrontN, toList_pop_front hwf, htl, List.drop_drop]

theorem erase_spec [Inhabited α] {b : RingBuf α} (h : b.WF) {f t : Nat}
    (hft : f ≤ t) (ht : t ≤ b.size) :
    (b.erase f t).1.WF ∧
      (b.erase f t).1.toList = b.toList.take f ++ b.toList.drop t ∧
      (b.erase f t).2 = f := by
  have hsz : b.size ≤ b.capacity := h.2.2.1
  rcases eq_or_ne f t with rfl | hne
  · rw [erase, if_pos rfl]
    exact ⟨h, (List.take_append_drop f b.toList).symm, rfl⟩
  have hlt : f < t := by omega
  rw [erase, if_neg hne]
  dsimp only
  by_cases hbr : f > b.size - t
  · rw [if_pos hbr]
    dsimp only
    obtain ⟨hwf1, hcap1, hro1, hsize1, hget1⟩ :=
      moveBackN_spec h hlt ht (b.size - t) (le_refl _)
    obtain ⟨hwf2, hcap2, hsize2, htl2⟩ := popBackN_spec hwf1 (t - f)
    rw [hsize2, hsize1]
    refine ⟨hwf2, ?_, by omega⟩
    rw [htl2, hsize1]
    apply List.ext_getElem
    · simp only [List.length_take, length_toList, hsize1, List.length_append,
        List.length_drop]
      omega
    · intro p h1 h2
      simp only [List.length_take, length_toList, hsize1] at h1
      rw [List.getElem_take, getElem_toList,
        hget1 p (by omega)]
      rcases Nat.lt_or_ge p f with hp | hp
      · rw [if_neg (by omega),
          List.getElem_append_left (by simp [List.length_take, length_toList]; omega),
          List.getElem_take, getElem_toList]
      · rw [if_pos (by omega),
          List.getElem_append_right (by simp [List.length_take, length_toList]; omega),
          List.getElem_drop, getElem_toList]
        congr 1
        simp only [List.length_take, length_toList]
        omega
  · rw [if_neg hbr]
    dsimp only
    obtain ⟨hwf1, hcap1, hro1, hsize1, hget1⟩ :=
      moveFrontN_spec h hlt ht f (le_refl _)
    obtain ⟨hwf2, hcap2, hsize2, htl2⟩ := popFrontN_spec hwf1 (t - f)
    rw [hsize2, hsize1]
    refine ⟨hwf2, ?_, by omega⟩
    rw [htl2]
    apply List.ext_getElem
    · simp only [List.length_drop, length_toList, hsize1, List.length_append,
        List.length_take]
      omega
    · intro p h1 h2
      simp only [List.length_drop, length_toList, hsize1] at h1
      rw [List.getElem_drop, getElem_toList, hget1 (t - f + p) (by omega)]
      rcases Nat.lt_or_ge p f with hp | hp
      · rw [if_pos (by omega),
          List.getElem_append_left (by simp [List.length_take, length_toList]; omega),
          List.getElem_take, getElem_toList]
        congr 1
        omega
      · rw [if_neg (by omega),
          List.getElem_append_right (by simp [List.length_take, length_toList]; omega),
          List.getElem_drop, getElem_toList]
        congr 1
        simp only [List.length_take, length_toList]
        omega

theorem get_eq_readPhys [Inhabited α] (b : RingBuf α) (j : Nat) :
    b.get j = b.readPhys (b.phys j) := rfl

theorem phys_contiguous {b : RingBuf α} (h : b.WF) {bi ei : Nat} (hbe : bi < ei)
    (he : ei ≤ b.size) (hcont : b.phys ei > b.phys bi) :
    ∀ k, k ≤ ei - bi → b.phys (bi + k) = b.phys bi + k := by
  obtain ⟨hlen, hro, hsz, hnext⟩ := h
  intro k hk
  unfold phys RingWrap at hcont ⊢
  split_ifs at hcont ⊢ <;> omega

theorem phys_wrapped {b : RingBuf α} (h : b.WF) {bi ei : Nat} (hbe : bi < ei)
    (_he : ei ≤ b.size) (hcont : ¬ b.phys ei > b.phys bi) :
    b.ring_offset + bi ≤ b.capacity ∧ b.capacity < b.ring_offset + ei := by
  obtain ⟨hlen, hro, hsz, hnext⟩ := h
  unfold phys RingWrap at hcont
  split_ifs at hcont <;> omega

theorem copyIters_eq_naiveCopy [Inhabited α] {b : RingBuf α} (h : b.WF)
    {bi ei : Nat} (hbe : bi ≤ ei) (he : ei ≤ b.size) :
    b.copyIters bi ei = b.naiveCopy bi ei := by
  rcases eq_or_ne bi ei with rfl | hne
  · rw [copyIters, if_pos rfl, naiveCopy]
    simp
  have hbe' : bi < ei := by omega
  have hlen := h.1
  have hro := h.2.1
  have hsz := h.2.2.1
  rw [copyIters, if_neg hne]
  by_cases hcont : b.phys ei > b.phys bi
  · rw [if_pos hcont]
    have hkey := phys_contiguous h hbe' he hcont
    have hdiff : b.phys ei - b.phys bi = ei - bi := by
      have := hkey (ei - bi) (le_refl _)
      rw [show bi + (ei - bi) = ei by omega] at this
      omega
    rw [hdiff, naiveCopy]
    apply List.map_congr_left
    intro k hk
    rw [List.mem_range] at hk
    rw [get_eq_readPhys, hkey k (by omega)]
  · rw [if_neg hcont]
    obtain ⟨hlow, hhigh⟩ := phys_wrapped h hbe' he hcont
    have hpbi : b.phys bi = b.ring_offset + bi := by
      unfold phys RingWrap
      rw [if_pos hlow]
    have hpei : b.phys ei = b.ring_offset + ei - b.capacity - 1 := by
      unfold phys RingWrap
      rw [if_neg (by omega)]
    have hsplit : ei - bi = (b.capacity + 1 - b.phys bi) + b.phys ei := by
      rw [hpbi, hpei]
      omega
    rw [naiveCopy, hsplit, List.range_add, List.map_append, List.map_map]
    congr 1
    · apply List.map_congr_left
      intro k hk
      rw [List.mem_range] at hk
      rw [get_eq_readPhys]
      congr 1
      rw [hpbi] at hk
      unfold phys RingWrap
      split_ifs <;> omega
    · apply List.map_congr_left
      intro k hk
      rw [List.mem_range] at hk
      simp only [Function.comp_apply]
      rw [get_eq_readPhys]
      congr 1
      rw [hpei] at hk
      unfold phys RingWrap
      split_ifs <;> omega

end RingBuf

theorem Iter.beq_self (x : Iter) : Iter.beq x x = true := by
  simp [Iter.beq]

theorem Iter.addIdx_sub {a b : Iter} (hcap : a.cap = b.cap) (hro : a.ro = b.ro)
    (ha : a.idx < USIZE) (hb : b.idx < USIZE) : a.addIdx (b.sub a) = b := by
  rcases a with ⟨ca, ra, ia⟩
  rcases b with ⟨cb, rb, ib⟩
  simp only at hcap hro ha hb
  subst hcap
  subst hro
  unfold Iter.addIdx Iter.sub USIZE at *
  simp only [Iter.mk.injEq, true_and]
  split_ifs with hgt <;> simp only at * <;> omega

theorem Iter.subIdx_sub {a b : Iter} (hcap : a.cap = b.cap) (hro : a.ro = b.ro)
    (ha : a.idx < USIZE) (hb : b.idx < USIZE) : b.subIdx (b.sub a) = a := by
  rcases a with ⟨ca, ra, ia⟩
  rcases b with ⟨cb, rb, ib⟩
  simp only at hcap hro ha hb
  subst hcap
  subst hro
  unfold Iter.subIdx Iter.sub USIZE at *
  simp only [Iter.mk.injEq, true_and]
  split_ifs with hgt <;> simp only at * <;> omega

theorem Iter.addIdx_subIdx_one (a : Iter) (n : Int) :
    (a.addIdx n).subIdx 1 = a.addIdx (n - 1) := by
  rcases a with ⟨ca, ra, ia⟩
  unfold Iter.addIdx Iter.subIdx USIZE
  simp only [Iter.mk.injEq, true_and]
  omega

/-! ## The claims -/

/-- C1, counterexample.  The claim says that pushing a throwing element into
a capacity-2 buffer holding 2 elements leaves the reported size at 1 (front
element evicted, not restored).  In the code, `emplace_back` constructs into
the spare slot `data_[next_]` *before* the eviction, so when the constructor
throws nothing has been modified: the buffer still holds both elements and
its size is 2, not 1. -/
theorem C1_counterexample :
    ((RingBuf.pushAllBack (RingBuf.ofCapacity 2 (0 : Int)) [1, 2]).emplace_back
        (Except.error ())).1 = Except.error () ∧
      ((RingBuf.pushAllBack (RingBuf.ofCapacity 2 (0 : Int)) [1, 2]).emplace_back
        (Except.error ())).2.size = 2 ∧
      ¬ ((RingBuf.pushAllBack (RingBuf.ofCapacity 2 (0 : Int)) [1, 2]).emplace_back
        (Except.error ())).2.size = 1 :=
  ⟨rfl, rfl, by decide⟩

/-- C1, amended.  When `push_back`/`emplace_back` is called on a buffer that
is already at capacity and the new element's constructor throws, the
exception propagates and the buffer is left completely unchanged — no
eviction occurs; concretely, pushing a throwing element into a capacity-2
buffer holding 2 elements leaves the reported size at 2 with both elements'
values intact and accessible. -/
theorem C1_throwing_push_on_full_buffer :
    (RingBuf.pushAllBack (RingBuf.ofCapacity 2 (0 : Int)) [1, 2]).size = 2 ∧
      ((RingBuf.pushAllBack (RingBuf.ofCapacity 2 (0 : Int)) [1, 2]).emplace_back
        (Except.error ())).1 = Except.error () ∧
      ((RingBuf.pushAllBack (RingBuf.ofCapacity 2 (0 : Int)) [1, 2]).emplace_back
        (Except.error ())).2 = RingBuf.pushAllBack (RingBuf.ofCapacity 2 (0 : Int)) [1, 2] ∧
      ((RingBuf.pushAllBack (RingBuf.ofCapacity 2 (0 : Int)) [1, 2]).emplace_back
        (Except.error ())).2.toList = [1, 2] ∧
      ((RingBuf.pushAllBack (RingBuf.ofCapacity 2 (0 : Int)) [1, 2]).emplace_back
        (Except.error ())).2.atIndex 0 = Except.ok 1 ∧
      ((RingBuf.pushAllBack (RingBuf.ofCapacity 2 (0 : Int)) [1, 2]).emplace_back
        (Except.error ())).2.atIndex 1 = Except.ok 2 :=
  ⟨rfl, rfl, by decide, by decide, rfl, rfl⟩

/-- C2: for every sequence of push/emplace operations on a well-formed buffer
of capacity `C`, `size() ≤ C` holds after every operation of the sequence;
and once `size() = C` (with `C > 0`), a single `push_back` keeps the size at
`C` while dropping the front element, and a single `push_front` keeps the
size at `C` while dropping the back element. -/
theorem C2_capacity_bound_and_eviction :
    ∀ (α : Type) [Inhabited α] (b : RingBuf α) (ops : List (RingBuf.Op α)),
      b.WF →
      (∀ l₁ l₂, ops = l₁ ++ l₂ → (RingBuf.applyOps b l₁).size ≤ b.capacity) ∧
      (∀ v : α, b.size = b.capacity → 0 < b.capacity →
        (b.push_back v).size = b.capacity ∧
        (b.push_back v).toList = b.toList.drop 1 ++ [v] ∧
        (b.push_front v).size = b.capacity ∧
        (b.push_front v).toList = v :: b.toList.dropLast) := by
  intro α _ b ops h
  constructor
  · intro l₁ l₂ _
    obtain ⟨hwf', hcap'⟩ := RingBuf.WF_applyOps h l₁
    have := hwf'.2.2.1
    rwa [hcap'] at this
  · intro v hful hpos
    refine ⟨?_, RingBuf.toList_push_back_full h hful hpos v, ?_,
      RingBuf.toList_push_front_full h hful hpos v⟩
    · rw [RingBuf.size_push_back h v, if_neg (by omega), if_pos hful]
    · rw [RingBuf.size_push_front h v, if_neg (by omega), if_pos hful]

/-- C2, witness. -/
theorem C2_capacity_bound_and_eviction_witness :
    (RingBuf.applyOps (RingBuf.pushAllBack (RingBuf.ofCapacity 2 (0 : Int)) [5, 7])
      [RingBuf.Op.pushBack 9]).size ≤ 2 ∧
    ((RingBuf.pushAllBack (RingBuf.ofCapacity 2 (0 : Int)) [5, 7]).push_back 9).toList
      = [7, 9] ∧
    ((RingBuf.pushAllBack (RingBuf.ofCapacity 2 (0 : Int)) [5, 7]).push_front 9).toList
      = [9, 5] := by
  have h := C2_capacity_bound_and_eviction Int
    (RingBuf.pushAllBack (RingBuf.ofCapacity 2 (0 : Int)) [5, 7])
    [RingBuf.Op.pushBack 9] (by decide)
  obtain ⟨hful⟩ := h.2 9 (by decide) (by decide)
  refine ⟨h.1 [RingBuf.Op.pushBack 9] [] rfl, ?_, ?_⟩
  · exact ((h.2 9 (by decide) (by decide)).2.1).trans (by decide)
  · exact ((h.2 9 (by decide) (by decide)).2.2.2).trans (by decide)

/-- C3: starting from an empty buffer, pushing a sequence `l` via `push_back`
leaves exactly the last `min |l| C` elements of `l`, in order: reading
`[0..N)` after `N ≤ C` pushes yields them in push order (`|l| - C = 0`, no
drop), and after `C + k` pushes exactly the elements `[k .. C+k)` remain;
concretely, with capacity 3, pushing 4, 6, 8, 10, 12 leaves a buffer with
`at(0) = 8`, `at(1) = 10`, `at(2) = 12`. -/
theorem C3_push_back_order :
    (∀ (α : Type) [Inhabited α] (e : RingBuf α) (l : List α),
      e.WF → e.size = 0 →
      (RingBuf.pushAllBack e l).toList = l.drop (l.length - e.capacity)) ∧
    (RingBuf.pushAllBack (RingBuf.ofCapacity 3 (0 : Int)) [4, 6, 8, 10, 12]).toList
      = [8, 10, 12] ∧
    (RingBuf.pushAllBack (RingBuf.ofCapacity 3 (0 : Int)) [4, 6, 8, 10, 12]).atIndex 0
      = Except.ok 8 ∧
    (RingBuf.pushAllBack (RingBuf.ofCapacity 3 (0 : Int)) [4, 6, 8, 10, 12]).atIndex 1
      = Except.ok 10 ∧
    (RingBuf.pushAllBack (RingBuf.ofCapacity 3 (0 : Int)) [4, 6, 8, 10, 12]).atIndex 2
      = Except.ok 12 := by
  refine ⟨?_, rfl, rfl, rfl, rfl⟩
  intro α _ e l hwf hsz
  exact (RingBuf.toList_pushAllBack hwf hsz l).2.2

/-- C3, witness. -/
theorem C3_push_back_order_witness :
    (RingBuf.pushAllBack (RingBuf.ofCapacity 2 (0 : Int)) [1, 2, 3]).toList = [2, 3] := by
  have h := C3_push_back_order.1 Int (RingBuf.ofCapacity 2 (0 : Int)) [1, 2, 3]
    (by decide) (by decide)
  exact h.trans (by decide)

/-- C4, counterexample.  The claim says `wrap(i) = i mod capacity` under the
precondition `i < 2 * capacity`.  At capacity 3 the input `i = 3` satisfies
the precondition, but the branch gives `RingWrap 3 3 = 3` while
`3 mod 3 = 0`: the function reduces modulo the backing array size
`capacity + 1`, not modulo `capacity`. -/
theorem C4_counterexample :
    (3 : Nat) < 2 * 3 ∧ RingWrap 3 3 = 3 ∧ (3 : Nat) % 3 = 0 ∧
      RingWrap 3 3 ≠ 3 % 3 := by
  decide

/-- C4, amended: for every `physical_index < 2 * (capacity + 1)` — which
covers both documented preconditions (`< 2 * Capacity` in `ringbuf.h` and
`< 2 * capacity + 1` in `flexible_ringbuf.h`) — the branch
`index ≤ capacity ? index : index - capacity - 1` realises
`physical_index mod (capacity + 1)`, the remainder modulo the backing array
size. -/
theorem C4_wrap_is_mod_array_size :
    ∀ capacity i : Nat, i < 2 * (capacity + 1) →
      RingWrap capacity i = i % (capacity + 1) := by
  intro cap i h
  unfold RingWrap
  split
  · rw [Nat.mod_eq_of_lt (by omega)]
  · rw [Nat.mod_eq_sub_mod (by omega), Nat.mod_eq_of_lt (by omega)]
    omega

/-- C4, witness. -/
theorem C4_wrap_is_mod_array_size_witness : RingWrap 3 5 = 5 % 4 :=
  C4_wrap_is_mod_array_size 3 5 (by decide)

/-- C5: `erase(first, last)`, given by the logical indices `f`/`t` of its
iterator arguments, removes exactly the logical half-open range `[f, t)` and
returns an iterator at logical index `f`, which dereferences to the element
that followed the erased range, or is `end()` (index = new size) if none;
concretely, on a capacity-5 buffer holding [4,6,8,10,12], `erase(1, 3)`
leaves [4,10,12] and returns an iterator dereferencing to 10, and erasing
the full range leaves an empty buffer and returns `end()`. -/
theorem C5_erase_range :
    (∀ (α : Type) [Inhabited α] (b : RingBuf α) (f t : Nat),
      b.WF → f ≤ t → t ≤ b.size →
      (b.erase f t).1.toList = b.toList.take f ++ b.toList.drop t ∧
      (b.erase f t).2 = f ∧
      (t < b.size →
        (b.erase f t).1.atIndex (b.erase f t).2 = Except.ok (b.get t)) ∧
      (t = b.size → (b.erase f t).2 = (b.erase f t).1.size)) ∧
    ((RingBuf.pushAllBack (RingBuf.ofCapacity 5 (0 : Int)) [4, 6, 8, 10, 12]).erase 1 3).1.toList
      = [4, 10, 12] ∧
    (((RingBuf.pushAllBack (RingBuf.ofCapacity 5 (0 : Int)) [4, 6, 8, 10, 12]).erase 1 3).1.atIndex
        ((RingBuf.pushAllBack (RingBuf.ofCapacity 5 (0 : Int)) [4, 6, 8, 10, 12]).erase 1 3).2)
      = Except.ok 10 ∧
    ((RingBuf.pushAllBack (RingBuf.ofCapacity 5 (0 : Int)) [4, 6, 8, 10, 12]).erase 0 5).1.toList
      = [] ∧
    ((RingBuf.pushAllBack (RingBuf.ofCapacity 5 (0 : Int)) [4, 6, 8, 10, 12]).erase 0 5).2
      = ((RingBuf.pushAllBack (RingBuf.ofCapacity 5 (0 : Int)) [4, 6, 8, 10, 12]).erase 0 5).1.size := by
  refine ⟨?_, rfl, rfl, rfl, rfl⟩
  intro α _ b f t hwf hft ht
  obtain ⟨hwf', htl, hret⟩ := RingBuf.erase_spec hwf hft ht
  have hsize' : (b.erase f t).1.size = f + (b.size - t) := by
    have hlen := congrArg List.length htl
    rw [RingBuf.length_toList] at hlen
    simp only [List.length_append, List.length_take, List.length_drop,
      RingBuf.length_toList] at hlen
    omega
  refine ⟨htl, hret, ?_, ?_⟩
  · intro htlt
    rw [hret, RingBuf.atIndex, if_neg (by omega)]
    congr 1
    have h1 : f < (b.erase f t).1.toList.length := by
      rw [RingBuf.length_toList]
      omega
    have h2 := RingBuf.getElem_toList (b.erase f t).1 f h1
    rw [← h2]
    have h3 : f < (b.toList.take f ++ b.toList.drop t).length := by
      simp only [List.length_append, List.length_take, List.length_drop,
        RingBuf.length_toList]
      omega
    have h4 : t < b.toList.length := by rw [RingBuf.length_toList]; omega
    calc (b.erase f t).1.toList[f]
        = (b.toList.take f ++ b.toList.drop t)[f] := by simp only [htl]
      _ = b.toList[t] := by
          rw [List.getElem_append_right
              (by simp only [List.length_take, RingBuf.length_toList]; omega),
            List.getElem_drop]
          congr 1
          simp only [List.length_take, RingBuf.length_toList]
          omega
      _ = b.get t := RingBuf.getElem_toList b t h4
  · intro hteq
    rw [hret, hsize']
    omega

/-- C5, witness. -/
theorem C5_erase_range_witness :
    ((RingBuf.pushAllBack (RingBuf.ofCapacity 4 (0 : Int)) [1, 2, 3]).erase 0 1).1.toList
      = [2, 3] ∧
    ((RingBuf.pushAllBack (RingBuf.ofCapacity 4 (0 : Int)) [1, 2, 3]).erase 0 1).2 = 0 := by
  have h := C5_erase_range.1 Int (RingBuf.pushAllBack (RingBuf.ofCapacity 4 (0 : Int)) [1, 2, 3])
    0 1 (by decide) (by decide) (by decide)
  exact ⟨h.1.trans (by decide), h.2.1⟩

/-- C6: for every well-formed buffer and valid logical range `[bi, ei)`
(`bi ≤ ei ≤ size`), the free function `copy` — empty check, then the
contiguity test `&*end > &*begin`, then either a single linear copy over
physical addresses `[phys bi, phys ei)` or exactly two (the tail segment up
to the physical end `capacity + 1` of the backing store, then the head
segment from physical index 0) — produces exactly the elements of the range
in logical order, i.e. it equals the naive elementwise forward copy; and for
a nonempty range the test `&*end > &*begin` holds exactly when the range is
physically contiguous (consecutive physical addresses). -/
theorem C6_copy_refines_naive :
    ∀ (α : Type) [Inhabited α] (b : RingBuf α) (bi ei : Nat),
      b.WF → bi ≤ ei → ei ≤ b.size →
      b.copyIters bi ei = b.naiveCopy bi ei ∧
      (bi < ei → (b.phys ei > b.phys bi ↔
        ∀ k, k ≤ ei - bi → b.phys (bi + k) = b.phys bi + k)) := by
  intro α _ b bi ei hwf hbe he
  refine ⟨RingBuf.copyIters_eq_naiveCopy hwf hbe he, ?_⟩
  intro hlt
  constructor
  · exact RingBuf.phys_contiguous hwf hlt he
  · intro hall
    have h := hall (ei - bi) (le_refl _)
    rw [show bi + (ei - bi) = ei by omega] at h
    omega

/-- C6, witness (a wrapped range: the buffer's contents cross the physical
end of the backing store). -/
theorem C6_copy_refines_naive_witness :
    (RingBuf.pushAllBack (RingBuf.ofCapacity 3 (0 : Int)) [4, 6, 8, 10, 12]).copyIters 0 3
      = [8, 10, 12] := by
  have h := C6_copy_refines_naive Int
    (RingBuf.pushAllBack (RingBuf.ofCapacity 3 (0 : Int)) [4, 6, 8, 10, 12]) 0 3
    (by decide) (by decide) (by decide)
  exact h.1.trans (by decide)

/-- C7: `at(index)` (a pure function of the buffer: it performs no
modification) fails with the out-of-range error exactly when
`index ≥ size()` and otherwise returns the element at that logical index —
never clamping the index or returning a default; `front()` and `back()` on
an empty buffer fail with the same out-of-range error, via `at(0)` and
`at(size() - 1)`. -/
theorem C7_at_out_of_range :
    ∀ (α : Type) [Inhabited α] (b : RingBuf α) (i : Nat),
      (i < b.size → b.atIndex i = Except.ok (b.get i)) ∧
      (b.size ≤ i → b.atIndex i = Except.error ()) ∧
      (b.size = 0 → b.front = Except.error () ∧ b.back = Except.error ()) := by
  intro α _ b i
  refine ⟨?_, ?_, ?_⟩
  · intro h
    rw [RingBuf.atIndex, if_neg (by omega)]
  · intro h
    rw [RingBuf.atIndex, if_pos (by omega)]
  · intro h0
    constructor
    · rw [RingBuf.front, RingBuf.atIndex, if_pos (by omega)]
    · rw [RingBuf.back, RingBuf.atIndex, if_pos (by omega)]

/-- C7, witness. -/
theorem C7_at_out_of_range_witness :
    (RingBuf.pushAllBack (RingBuf.ofCapacity 2 (0 : Int)) [5]).atIndex 0 = Except.ok 5 ∧
    (RingBuf.pushAllBack (RingBuf.ofCapacity 2 (0 : Int)) [5]).atIndex 3
      = Except.error () ∧
    (RingBuf.ofCapacity 2 (0 : Int)).front = Except.error () := by
  refine ⟨?_, ?_, ?_⟩
  · exact ((C7_at_out_of_range Int
      (RingBuf.pushAllBack (RingBuf.ofCapacity 2 (0 : Int)) [5]) 0).1 (by decide)).trans rfl
  · exact (C7_at_out_of_range Int
      (RingBuf.pushAllBack (RingBuf.ofCapacity 2 (0 : Int)) [5]) 3).2.1 (by decide)
  · exact ((C7_at_out_of_range Int (RingBuf.ofCapacity 2 (0 : Int)) 0).2.2
      (by decide)).1

/-- C8: for iterators `a`, `b` of one same buffer (same `capacity_`,
`ring_offset_`, `data_`) with machine-representable indices, letting
`n = b - a` (the `operator-` branch), the laws `a + n = b`,
`(a + n) - 1 = a + (n - 1)` and `b - n = a` hold, both as structural
equality of iterators and under the source's address-based `operator==`;
`it + n`/`it - n` are `+=`/`-=` on a copy, with unsigned wraparound.  The
laws are independent of where the range sits physically, so they hold both
for contiguous and for wrapped ranges (the witness instantiates a wrapped
one). -/
theorem C8_iterator_difference_laws :
    ∀ a b : Iter, a.cap = b.cap → a.ro = b.ro →
      a.idx < USIZE → b.idx < USIZE →
      a.addIdx (b.sub a) = b ∧
      (a.addIdx (b.sub a)).subIdx 1 = a.addIdx (b.sub a - 1) ∧
      b.subIdx (b.sub a) = a ∧
      Iter.beq (a.addIdx (b.sub a)) b = true ∧
      Iter.beq ((a.addIdx (b.sub a)).subIdx 1) (a.addIdx (b.sub a - 1)) = true ∧
      Iter.beq (b.subIdx (b.sub a)) a = true := by
  intro a b hcap hro ha hb
  have h1 := Iter.addIdx_sub hcap hro ha hb
  have h2 := Iter.addIdx_subIdx_one a (b.sub a)
  have h3 := Iter.subIdx_sub hcap hro ha hb
  refine ⟨h1, h2, h3, ?_, ?_, ?_⟩
  · rw [h1]; exact Iter.beq_self b
  · rw [h2]; exact Iter.beq_self _
  · rw [h3]; exact Iter.beq_self a

/-- C8, witness: capacity 3, `ring_offset_ = 3`, so the range from index 0
to index 2 wraps around the physical end of the backing store
(`addr a = 3 > 1 = addr b`). -/
theorem C8_iterator_difference_laws_witness :
    Iter.addIdx ⟨3, 3, 0⟩ (Iter.sub ⟨3, 3, 2⟩ ⟨3, 3, 0⟩) = ⟨3, 3, 2⟩ ∧
    Iter.subIdx ⟨3, 3, 2⟩ (Iter.sub ⟨3, 3, 2⟩ ⟨3, 3, 0⟩) = ⟨3, 3, 0⟩ ∧
    (Iter.addr ⟨3, 3, 0⟩ > Iter.addr ⟨3, 3, 2⟩) := by
  have h := C8_iterator_difference_laws ⟨3, 3, 0⟩ ⟨3, 3, 2⟩ rfl rfl
    (by decide) (by decide)
  exact ⟨h.1, h.2.2.1, by decide⟩

/-- C9: a well-formed buffer with capacity 0 always reports `empty()` and
`size() = 0`, and every `push_back`/`push_front` call leaves the state
bit-for-bit unchanged, while every `emplace_back`/`emplace_front` call —
whatever its construction argument would do, including throwing — returns
normally (no exception) without constructing anything or changing the state:
the `max_size() == 0` early return fires before the constructor is invoked. -/
theorem C9_zero_capacity_noop :
    ∀ (α : Type) (b : RingBuf α), b.WF → b.capacity = 0 →
      b.empty = true ∧ b.size = 0 ∧
      (∀ v : α, b.push_back v = b ∧ b.push_front v = b) ∧
      (∀ arg : Except Unit α,
        b.emplace_back arg = (Except.ok (), b) ∧
        b.emplace_front arg = (Except.ok (), b)) := by
  intro α b hwf hc
  have hsz : b.size = 0 := by
    have := hwf.2.2.1
    omega
  refine ⟨by simp [RingBuf.empty, hsz], hsz, ?_, ?_⟩
  · intro v
    exact ⟨RingBuf.push_back_zero hc v, RingBuf.push_front_zero hc v⟩
  · intro arg
    constructor
    · simp [RingBuf.emplace_back, hc]
    · simp [RingBuf.emplace_front, hc]

/-- C9, witness. -/
theorem C9_zero_capacity_noop_witness :
    (RingBuf.ofCapacity 0 (0 : Int)).empty = true ∧
    (RingBuf.ofCapacity 0 (0 : Int)).push_back 5 = RingBuf.ofCapacity 0 (0 : Int) ∧
    (RingBuf.ofCapacity 0 (0 : Int)).emplace_back (Except.error ())
      = (Except.ok (), RingBuf.ofCapacity 0 (0 : Int)) := by
  have h := C9_zero_capacity_noop Int (RingBuf.ofCapacity 0 (0 : Int))
    (by decide) rfl
  exact ⟨h.1, (h.2.2.1 5).1, (h.2.2.2 (Except.error ())).1⟩

/-- C10: if element construction throws during `emplace_back`/`emplace_front`
(hence `push_back`/`push_front`), the buffer is left completely unchanged —
structurally equal state, so same `size_`, same elements, same `next_` and
`ring_offset_` — and the exception propagates (when the capacity is nonzero;
at capacity 0 the constructor is never invoked); no eviction occurs even at
capacity, because the element is constructed into the spare slot first: for
a well-formed buffer, neither construct target (`data_[next_]` for the back,
`data_[Decrement(ring_offset_)]` for the front) is a live slot. -/
theorem C10_strong_exception_guarantee :
    ∀ (α : Type) (b : RingBuf α) (e : Unit),
      (b.emplace_back (Except.error e)).2 = b ∧
      (b.emplace_front (Except.error e)).2 = b ∧
      (b.capacity ≠ 0 →
        (b.emplace_back (Except.error e)).1 = Except.error e ∧
        (b.emplace_front (Except.error e)).1 = Except.error e) ∧
      (b.WF → ∀ i, i < b.size →
        RingWrap b.capacity (b.ring_offset + i) ≠ b.next ∧
        RingWrap b.capacity (b.ring_offset + i) ≠ b.Decrement b.ring_offset) := by
  intro α b e
  refine ⟨RingBuf.emplace_back_error b e, RingBuf.emplace_front_error b e,
    fun hc => ⟨RingBuf.emplace_back_error_outcome hc e,
      RingBuf.emplace_front_error_outcome hc e⟩, ?_⟩
  intro hwf i hi
  obtain ⟨hlen, hro, hsz, hnext⟩ := hwf
  constructor
  · rw [hnext]
    intro hcEq
    have := @RingBuf.ringWrap_inj b.capacity b.ring_offset i b.size
      (by omega) (by omega) hcEq
    omega
  · rw [RingBuf.Decrement_ring_offset hro]
    intro hcEq
    have := @RingBuf.ringWrap_inj b.capacity b.ring_offset i b.capacity
      (by omega) (by omega) hcEq
    omega

/-- C10, witness. -/
theorem C10_strong_exception_guarantee_witness :
    ((RingBuf.pushAllBack (RingBuf.ofCapacity 2 (0 : Int)) [1, 2]).emplace_front
      (Except.error ())).2 = RingBuf.pushAllBack (RingBuf.ofCapacity 2 (0 : Int)) [1, 2] ∧
    ((RingBuf.pushAllBack (RingBuf.ofCapacity 2 (0 : Int)) [1, 2]).emplace_front
      (Except.error ())).1 = Except.error () ∧
    RingWrap 2 ((RingBuf.pushAllBack (RingBuf.ofCapacity 2 (0 : Int)) [1, 2]).ring_offset + 0)
      ≠ (RingBuf.pushAllBack (RingBuf.ofCapacity 2 (0 : Int)) [1, 2]).next := by
  have h := C10_strong_exception_guarantee Int
    (RingBuf.pushAllBack (RingBuf.ofCapacity 2 (0 : Int)) [1, 2]) ()
  exact ⟨h.2.1, (h.2.2.1 (by decide)).2, (h.2.2.2 (by decide) 0 (by decide)).1⟩

end Ringbuf
